import Mathlib

/-! The linter configuration descriptor `ssr/.eslintrc.js`.

The repository is one JavaScript module whose `module.exports` is an object
literal built from strings, numbers, booleans, arrays and nested object
literals.  The literal is embedded as a value of `JsValue`; an object literal
is the list of its `key: value` entries in the order they are written, so a
repeated key would be visible in the embedding.
-/

namespace EslintRc

/-- JavaScript values of the kinds that occur in the configuration literal. -/
inductive JsValue where
  | str (s : String)
  | num (n : Int)
  | bool (b : Bool)
  | arr (items : List JsValue)
  | obj (fields : List (String × JsValue))

/-- Property read on the entries of an object literal: when a key is written
more than once the last entry is the one that is read, as in JavaScript. -/
def getProp (k : String) : List (String × JsValue) → Option JsValue
  | [] => none
  | (k', v) :: rest =>
    match getProp k rest with
    | some w => some w
    | none => if k' = k then some v else none

/-- The entries of an object literal; a value that is not an object has none. -/
def JsValue.fields : JsValue → List (String × JsValue)
  | .obj fs => fs
  | _ => []

/-- Property read `v[k]` on a value. -/
def JsValue.prop (v : JsValue) (k : String) : Option JsValue :=
  getProp k v.fields

/-- The keys of an object literal, in the order they are written. -/
def JsValue.keys (v : JsValue) : List String :=
  v.fields.map Prod.fst

/-- The value of `module.exports` in `ssr/.eslintrc.js`.  The line
`//browser: true,` of the source is a comment and contributes no entry. -/
def module.exports : JsValue :=
  .obj [
    ("env", .obj [
      ("node", .bool true),
      ("es6", .bool true)]),
    ("extends", .str "eslint:recommended"),
    ("globals", .obj [
      ("Atomics", .str "readonly"),
      ("SharedArrayBuffer", .str "readonly")]),
    ("parserOptions", .obj [
      ("ecmaVersion", .num 10),
      ("sourceType", .str "module")]),
    ("rules", .obj [
      ("no-console", .str "warn"),
      ("no-unused-vars", .arr [.str "error", .obj [("vars", .str "all"), ("args", .str "none")]])])]

/-- A field of the descriptor as a value; a missing field reads as an empty record. -/
def field (k : String) : JsValue :=
  (module.exports.prop k).getD (.obj [])

/-- The record `module.exports.env`. -/
def env : JsValue := field "env"

/-- The record `module.exports.globals`. -/
def globals : JsValue := field "globals"

/-- The record `module.exports.parserOptions`. -/
def parserOptions : JsValue := field "parserOptions"

/-- The record `module.exports.rules`. -/
def rules : JsValue := field "rules"

/-- The field `module.exports.extends`, as written in the source. -/
def extendsField : Option JsValue := module.exports.prop "extends"

/-- Every object literal that occurs in a value: the value itself when it is
an object, and the object literals nested in its entries and items. -/
def JsValue.records : JsValue → List (List (String × JsValue))
  | .obj fs => fs :: recordsOfFields fs
  | .arr xs => recordsOfItems xs
  | _ => []
where
  /-- Object literals nested in the values of a list of entries. -/
  recordsOfFields : List (String × JsValue) → List (List (String × JsValue))
    | [] => []
    | (_, v) :: rest => v.records ++ recordsOfFields rest
  /-- Object literals nested in the items of an array literal. -/
  recordsOfItems : List JsValue → List (List (String × JsValue))
    | [] => []
    | v :: rest => v.records ++ recordsOfItems rest

/-- Modelled from the spec: the severity vocabulary of the external tool,
which is not part of this repository.  The spec gives it as the closed
enumeration off / warn / error. -/
inductive Severity where
  | off
  | warn
  | error
  deriving DecidableEq, Repr

/-- Modelled from the spec: reading of a severity word; the external tool's
reader is not part of this repository. -/
def Severity.ofString (s : String) : Option Severity :=
  if s = "off" then some .off
  else if s = "warn" then some .warn
  else if s = "error" then some .error
  else none

/-- Modelled from the spec: the severity of a rule entry, which is the entry
itself when it is a bare value and the first element when the entry is a
tuple carrying rule-specific parameters. -/
def ruleSeverity : JsValue → Option Severity
  | .str s => Severity.ofString s
  | .arr (.str s :: _) => Severity.ofString s
  | _ => none

/-- Modelled from the spec: the two access-mode tags of a declared global;
the external tool's vocabulary is not part of this repository. -/
inductive AccessMode where
  | readOnly
  | readWrite
  deriving DecidableEq, Repr

/-- Modelled from the spec: reading of an access-mode word.  The spec writes
the read-only tag as "readonly"; "writable" is the external tool's word for
the read-write tag. -/
def AccessMode.ofValue : JsValue → Option AccessMode
  | .str s =>
    if s = "readonly" then some .readOnly
    else if s = "writable" then some .readWrite
    else none
  | _ => none

/-- Modelled from the spec: read-only forbids reassignment, read-write permits it;
the external tool's check is not part of this repository. -/
def AccessMode.permitsReassignment : AccessMode → Bool
  | .readOnly => false
  | .readWrite => true

/-- The access mode the descriptor declares for an identifier, if it declares one. -/
def globalMode (name : String) : Option AccessMode :=
  (globals.prop name).bind AccessMode.ofValue

/-- Modelled from the spec: a reference to an identifier is reported as undefined
when the identifier is not among the declared globals; the external tool's
diagnostic is not part of this repository and the identifiers predeclared by
environments are left out. -/
def undefinedIdentifier (name : String) : Bool :=
  (globals.prop name).isNone

/-- Modelled from the spec: a reassignment of a declared global is reported as a
read-only-global violation when its access mode does not permit reassignment;
the external tool's diagnostic is not part of this repository. -/
def readOnlyReassigned (name : String) : Bool :=
  match globalMode name with
  | some m => !m.permitsReassignment
  | none => false

/-- The environment tags present in `env`: the keys whose value is `true`. -/
def environments : List String :=
  env.fields.filterMap fun kv =>
    match kv.2 with
    | .bool true => some kv.1
    | _ => none

/-- Modelled from the spec: the environment tags the spec names as tags of the
external tool, "node" and "es6".  The tool's full set is not part of this
repository; the tags listed here are the part of it the spec states. -/
def recognizedEnvironments : List String := ["node", "es6"]

/-- Modelled from the spec: the two module-system modes of the parser options;
the external tool's vocabulary is not part of this repository. -/
inductive SourceType where
  | script
  | module
  deriving DecidableEq, Repr

/-- Modelled from the spec: reading of a module-system mode word. -/
def SourceType.ofValue : JsValue → Option SourceType
  | .str s =>
    if s = "script" then some .script
    else if s = "module" then some .module
    else none
  | _ => none

/-- The module-system mode `parserOptions.sourceType`. -/
def sourceType : Option SourceType :=
  (parserOptions.prop "sourceType").bind SourceType.ofValue

/-- The language-version marker `parserOptions.ecmaVersion`, when it is an integer. -/
def ecmaVersion : Option Int :=
  match parserOptions.prop "ecmaVersion" with
  | some (.num n) => some n
  | _ => none

/-- Modelled from the spec: layering one rule-set on top of another.  The
entries of `top` are placed after those of `base`, so that on a key
collision the entry of `top` is the one that is read.  The external tool's
configuration resolution is not part of this repository. -/
def layer (base top : List (String × JsValue)) : List (String × JsValue) :=
  base ++ top

/-- Modelled from the spec: the rules in force once `extends` is resolved to
the rule-set `base` and the descriptor's `rules` are layered on top. -/
def resolvedRules (base : List (String × JsValue)) : List (String × JsValue) :=
  layer base rules.fields

/-- Modelled from the spec: the severity in force for a rule over a base rule-set. -/
def resolvedSeverity (base : List (String × JsValue)) (rule : String) : Option Severity :=
  (getProp rule (resolvedRules base)).bind ruleSeverity

/-- Modelled from the spec: the `extends` field read as an ordered sequence of
rule-set names.  A bare name, as the source writes it, is the sequence with
that one entry. -/
def extendsNames : Option JsValue → Option (List String)
  | some (.str s) => some [s]
  | some (.arr items) =>
    items.mapM fun v =>
      match v with
      | .str s => some s
      | _ => none
  | _ => none

/-- Modelled from the spec: inheriting from a sequence of named base rule-sets,
each layered on top of the ones before it.  `ruleSetOf` stands for the external
tool's table of named rule-sets, which is not part of this repository. -/
def resolveExtends (ruleSetOf : String → List (String × JsValue)) (names : List String) :
    List (String × JsValue) :=
  names.foldl (fun acc n => layer acc (ruleSetOf n)) []

/-! ## A text form of descriptor values -/

/-- The double-quote character that delimits a string in the text form. -/
def quote : Char := Char.ofNat 34

/-- The backslash character that introduces an escape inside a string. -/
def backslash : Char := Char.ofNat 92

/-- The line-feed character. -/
def lineFeed : Char := Char.ofNat 10

/-- The carriage-return character. -/
def carriageReturn : Char := Char.ofNat 13

/-- The horizontal-tab character. -/
def tab : Char := Char.ofNat 9

/-- Modelled from the spec: the characters written for one character of a string.
The quote, the backslash, line feed, carriage return and tab are written as
two-character escapes, every other character as itself.  The spec asks for a
serialization of the descriptor without fixing one; the repository has none. -/
def escapeChar (c : Char) : List Char :=
  if c = quote then [backslash, quote]
  else if c = backslash then [backslash, backslash]
  else if c = lineFeed then [backslash, 'n']
  else if c = carriageReturn then [backslash, 'r']
  else if c = tab then [backslash, 't']
  else [c]

/-- Modelled from the spec: the body of a string in the text form, without its quotes. -/
def escapeChars : List Char → List Char
  | [] => []
  | c :: cs => escapeChar c ++ escapeChars cs

/-- Modelled from the spec: the character an escape letter stands for. -/
def unescapeChar (e : Char) : Option Char :=
  if e = quote then some quote
  else if e = backslash then some backslash
  else if e = 'n' then some lineFeed
  else if e = 'r' then some carriageReturn
  else if e = 't' then some tab
  else none

/-- Modelled from the spec: reads the body of a string up to and including its
closing quote and returns the characters it stands for and the text after it. -/
def parseStringBody : List Char → Option (List Char × List Char)
  | [] => none
  | c :: cs =>
    if c = quote then some ([], cs)
    else if c = backslash then
      match cs with
      | [] => none
      | e :: cs' =>
        match unescapeChar e, parseStringBody cs' with
        | some d, some (s, rest) => some (d :: s, rest)
        | _, _ => none
    else
      match parseStringBody cs with
      | some (s, rest) => some (c :: s, rest)
      | none => none

/-- The character of a decimal digit. -/
def digitChar (d : Nat) : Char := Char.ofNat (48 + d)

/-- The decimal digit a character stands for, if it is one. -/
def charDigit (c : Char) : Option Nat :=
  if 48 ≤ c.toNat ∧ c.toNat ≤ 57 then some (c.toNat - 48) else none

/-- Modelled from the spec: the decimal digits of a natural number, most significant
first, placed in front of `acc`. -/
def natDigits : Nat → Nat → List Char → List Char
  | 0, _, acc => acc
  | fuel + 1, n, acc =>
    if n < 10 then digitChar n :: acc
    else natDigits fuel (n / 10) (digitChar (n % 10) :: acc)

/-- Modelled from the spec: the decimal text of a natural number. -/
def serializeNat (n : Nat) : List Char := natDigits (n + 1) n []

/-- Modelled from the spec: the decimal text of an integer. -/
def serializeInt (n : Int) : List Char :=
  if n < 0 then '-' :: serializeNat n.natAbs else serializeNat n.natAbs

/-- Modelled from the spec: reads a run of decimal digits, continuing the number `acc`. -/
def parseDigits : List Char → Nat → Nat × List Char
  | [], acc => (acc, [])
  | c :: cs, acc =>
    match charDigit c with
    | some d => parseDigits cs (acc * 10 + d)
    | none => (acc, c :: cs)

/-- Modelled from the spec: reads a natural number, which has at least one digit. -/
def parseNat (cs : List Char) : Option (Nat × List Char) :=
  match cs with
  | [] => none
  | c :: _ => if (charDigit c).isSome then some (parseDigits cs 0) else none

mutual
/-- Modelled from the spec: the text form of a value, a compact JSON text. -/
def serializeValue : JsValue → List Char
  | .str s => quote :: (escapeChars s.data ++ [quote])
  | .num n => serializeInt n
  | .bool true => ['t', 'r', 'u', 'e']
  | .bool false => ['f', 'a', 'l', 's', 'e']
  | .arr [] => ['[', ']']
  | .arr (v :: rest) => '[' :: (serializeValue v ++ serializeItems rest)
  | .obj [] => ['{', '}']
  | .obj ((k, v) :: rest) =>
    '{' :: (quote :: (escapeChars k.data ++ quote :: ':' :: serializeValue v)
      ++ serializeFields rest)
/-- Modelled from the spec: the items of an array after the first, each after a
comma, and the closing bracket. -/
def serializeItems : List JsValue → List Char
  | [] => [']']
  | v :: rest => ',' :: (serializeValue v ++ serializeItems rest)
/-- Modelled from the spec: the entries of a record after the first, each after a
comma, and the closing brace. -/
def serializeFields : List (String × JsValue) → List Char
  | [] => ['}']
  | (k, v) :: rest =>
    ',' :: (quote :: (escapeChars k.data ++ quote :: ':' :: serializeValue v)
      ++ serializeFields rest)
end

/-- Modelled from the spec: reads one entry `"key":value` of a record, the value
being read by `parseVal`. -/
def parseField (parseVal : List Char → Option (JsValue × List Char)) (cs : List Char) :
    Option ((String × JsValue) × List Char) :=
  match cs with
  | [] => none
  | c :: cs' =>
    if c = quote then
      match parseStringBody cs' with
      | some (k, d :: r) =>
        if d = ':' then
          match parseVal r with
          | some (v, rest) => some ((String.mk k, v), rest)
          | none => none
        else none
      | _ => none
    else none

mutual
/-- Modelled from the spec: reads one value from the front of a text and returns
it with the text after it.  `fuel` bounds the nesting and the number of items. -/
def parseValue : Nat → List Char → Option (JsValue × List Char)
  | 0, _ => none
  | _ + 1, [] => none
  | fuel + 1, c :: cs =>
    if c = quote then
      match parseStringBody cs with
      | some (s, rest) => some (.str (String.mk s), rest)
      | none => none
    else if c = 't' then
      match cs with
      | 'r' :: 'u' :: 'e' :: rest => some (.bool true, rest)
      | _ => none
    else if c = 'f' then
      match cs with
      | 'a' :: 'l' :: 's' :: 'e' :: rest => some (.bool false, rest)
      | _ => none
    else if c = '[' then
      match cs with
      | [] => none
      | d :: ds =>
        if d = ']' then some (.arr [], ds)
        else
          match parseValue fuel (d :: ds) with
          | some (v, rest) =>
            match parseItems fuel rest with
            | some (vs, rest') => some (.arr (v :: vs), rest')
            | none => none
          | none => none
    else if c = '{' then
      match cs with
      | [] => none
      | d :: ds =>
        if d = '}' then some (.obj [], ds)
        else
          match parseField (parseValue fuel) (d :: ds) with
          | some (e, rest) =>
            match parseFields fuel rest with
            | some (es, rest') => some (.obj (e :: es), rest')
            | none => none
          | none => none
    else if c = '-' then
      match parseNat cs with
      | some (n, rest) => some (.num (-(n : Int)), rest)
      | none => none
    else
      match parseNat (c :: cs) with
      | some (n, rest) => some (.num (n : Int), rest)
      | none => none
/-- Modelled from the spec: reads the items of an array after the first, up to and
including the closing bracket. -/
def parseItems : Nat → List Char → Option (List JsValue × List Char)
  | 0, _ => none
  | _ + 1, [] => none
  | fuel + 1, c :: cs =>
    if c = ']' then some ([], cs)
    else if c = ',' then
      match parseValue fuel cs with
      | some (v, rest) =>
        match parseItems fuel rest with
        | some (vs, rest') => some (v :: vs, rest')
        | none => none
      | none => none
    else none
/-- Modelled from the spec: reads the entries of a record after the first, up to and
including the closing brace. -/
def parseFields : Nat → List Char → Option (List (String × JsValue) × List Char)
  | 0, _ => none
  | _ + 1, [] => none
  | fuel + 1, c :: cs =>
    if c = '}' then some ([], cs)
    else if c = ',' then
      match parseField (parseValue fuel) cs with
      | some (e, rest) =>
        match parseFields fuel rest with
        | some (es, rest') => some (e :: es, rest')
        | none => none
      | none => none
    else none
end

/-- Modelled from the spec: serializing a descriptor value to text. -/
def serialize (v : JsValue) : String := String.mk (serializeValue v)

/-- Modelled from the spec: re-parsing a text; the whole text has to be one value. -/
def parse (text : String) : Option JsValue :=
  match parseValue (text.length + 1) text.data with
  | some (v, []) => some v
  | _ => none

/-- A text that does not continue a number: it is empty or starts with a character
that is not a digit. -/
def NoDigitHead (rest : List Char) : Prop :=
  ∀ c cs, rest = c :: cs → charDigit c = none


/-! ## Lemmas on property reads -/

theorem getProp_append (k : String) (a b : List (String × JsValue)) :
    getProp k (a ++ b) =
      match getProp k b with
      | some w => some w
      | none => getProp k a := by
  induction a with
  | nil => cases h : getProp k b <;> simp [getProp, h]
  | cons e a ih =>
    obtain ⟨k', v⟩ := e
    have hc : getProp k ((k', v) :: a ++ b) =
        match getProp k (a ++ b) with
        | some w => some w
        | none => if k' = k then some v else none := rfl
    rw [hc, ih]
    cases h : getProp k b <;> simp [getProp]

theorem getProp_eq_none_of_not_mem (k : String) (r : List (String × JsValue))
    (h : k ∉ r.map Prod.fst) : getProp k r = none := by
  induction r with
  | nil => rfl
  | cons e r ih =>
    obtain ⟨k', v⟩ := e
    simp only [List.map_cons, List.mem_cons, not_or] at h
    simp only [getProp, ih h.2]
    simp [Ne.symm h.1]

theorem getProp_of_nodup (r : List (String × JsValue)) (hr : (r.map Prod.fst).Nodup)
    (k : String) (v : JsValue) (h : (k, v) ∈ r) : getProp k r = some v := by
  induction r with
  | nil => cases h
  | cons e r ih =>
    obtain ⟨k', v'⟩ := e
    simp only [List.map_cons, List.nodup_cons] at hr
    rcases List.mem_cons.1 h with heq | hmem
    · cases heq
      simp [getProp, getProp_eq_none_of_not_mem k r hr.1]
    · simp [getProp, ih hr.2 hmem]

theorem rules_fields :
    rules.fields =
      [("no-console", .str "warn"),
       ("no-unused-vars",
          .arr [.str "error", .obj [("vars", .str "all"), ("args", .str "none")]])] := by
  rfl

theorem globals_fields :
    globals.fields =
      [("Atomics", .str "readonly"), ("SharedArrayBuffer", .str "readonly")] := by
  rfl

theorem records_length : module.exports.records.length = 6 := by decide

theorem records_nodup :
    ∀ r ∈ module.exports.records, (r.map Prod.fst).Nodup := by decide

/-! ## Lemmas on the text form -/

theorem charDigit_digitChar (d : Nat) (h : d < 10) : charDigit (digitChar d) = some d := by
  interval_cases d <;> rfl

theorem digitChar_ne (d : Nat) (h : d < 10) :
    digitChar d ≠ quote ∧ digitChar d ≠ 't' ∧ digitChar d ≠ 'f' ∧ digitChar d ≠ '[' ∧
      digitChar d ≠ '{' ∧ digitChar d ≠ '-' ∧ digitChar d ≠ ']' ∧ digitChar d ≠ '}' := by
  interval_cases d <;> decide

theorem noDigitHead_nil : NoDigitHead [] := by
  intro c cs h
  cases h

theorem noDigitHead_cons (c : Char) (cs : List Char) (h : charDigit c = none) :
    NoDigitHead (c :: cs) := by
  intro d ds hd
  cases hd
  exact h

theorem parseDigits_noDigitHead (rest : List Char) (a : Nat) (h : NoDigitHead rest) :
    parseDigits rest a = (a, rest) := by
  cases rest with
  | nil => rfl
  | cons c cs => simp [parseDigits, h c cs rfl]

theorem parseDigits_natDigits (fuel : Nat) :
    ∀ (n : Nat) (acc rest : List Char), n < fuel →
      parseDigits (natDigits fuel n acc ++ rest) 0 = parseDigits (acc ++ rest) n := by
  induction fuel with
  | zero => intro n acc rest h; omega
  | succ fuel ih =>
    intro n acc rest h
    unfold natDigits
    split
    · rename_i h10
      simp [parseDigits, charDigit_digitChar n h10]
    · rename_i h10
      rw [ih (n / 10) _ rest (by omega)]
      have hd : charDigit (digitChar (n % 10)) = some (n % 10) :=
        charDigit_digitChar _ (Nat.mod_lt _ (by decide))
      simp only [List.cons_append, parseDigits, hd]
      congr 1
      omega

theorem natDigits_head (fuel : Nat) :
    ∀ (n : Nat) (acc : List Char), n < fuel →
      ∃ d tl, d < 10 ∧ natDigits fuel n acc = digitChar d :: tl := by
  induction fuel with
  | zero => intro n acc h; omega
  | succ fuel ih =>
    intro n acc h
    unfold natDigits
    split
    · rename_i h10
      exact ⟨n, acc, h10, rfl⟩
    · exact ih (n / 10) _ (by omega)

theorem parseNat_serializeNat (n : Nat) (rest : List Char) (h : NoDigitHead rest) :
    parseNat (serializeNat n ++ rest) = some (n, rest) := by
  obtain ⟨d, tl, hd, htl⟩ := natDigits_head (n + 1) n [] (Nat.lt_succ_self n)
  have hp : parseDigits (serializeNat n ++ rest) 0 = (n, rest) := by
    unfold serializeNat
    rw [parseDigits_natDigits (n + 1) n [] rest (Nat.lt_succ_self n)]
    exact parseDigits_noDigitHead rest n h
  unfold parseNat
  rw [← hp]
  unfold serializeNat
  rw [htl]
  simp [charDigit_digitChar d hd]

theorem parseStringBody_escapeChar (c : Char) (rest : List Char) :
    parseStringBody (escapeChar c ++ rest) =
      match parseStringBody rest with
      | some (s, r) => some (c :: s, r)
      | none => none := by
  have hqb : quote ≠ backslash := by decide
  by_cases h1 : c = quote
  · subst h1
    cases hr : parseStringBody rest <;>
      simp [escapeChar, parseStringBody, unescapeChar, hqb.symm, hr]
  by_cases h2 : c = backslash
  · subst h2
    cases hr : parseStringBody rest <;>
      simp [escapeChar, parseStringBody, unescapeChar, hqb.symm, hr]
  by_cases h3 : c = lineFeed
  · subst h3
    cases hr : parseStringBody rest <;>
      simp [escapeChar, parseStringBody, unescapeChar, hqb.symm, hr,
        show lineFeed ≠ quote by decide, show lineFeed ≠ backslash by decide,
        show ('n' : Char) ≠ quote by decide, show ('n' : Char) ≠ backslash by decide]
  by_cases h4 : c = carriageReturn
  · subst h4
    cases hr : parseStringBody rest <;>
      simp [escapeChar, parseStringBody, unescapeChar, hqb.symm, hr,
        show carriageReturn ≠ quote by decide, show carriageReturn ≠ backslash by decide,
        show carriageReturn ≠ lineFeed by decide,
        show ('r' : Char) ≠ quote by decide, show ('r' : Char) ≠ backslash by decide]
  by_cases h5 : c = tab
  · subst h5
    cases hr : parseStringBody rest <;>
      simp [escapeChar, parseStringBody, unescapeChar, hqb.symm, hr,
        show tab ≠ quote by decide, show tab ≠ backslash by decide,
        show tab ≠ lineFeed by decide, show tab ≠ carriageReturn by decide,
        show ('t' : Char) ≠ quote by decide, show ('t' : Char) ≠ backslash by decide]
  · have hc : parseStringBody (c :: rest) =
        match parseStringBody rest with
        | some (s, r) => some (c :: s, r)
        | none => none := by
      rw [parseStringBody.eq_def]
      simp [h1, h2]
    simp [escapeChar, h1, h2, h3, h4, h5, hc]

theorem parseStringBody_escapeChars (s rest : List Char) :
    parseStringBody (escapeChars s ++ quote :: rest) = some (s, rest) := by
  induction s with
  | nil =>
    show parseStringBody (quote :: rest) = some ([], rest)
    rw [parseStringBody.eq_def]
    simp
  | cons c s ih =>
    simp only [escapeChars, List.append_assoc]
    rw [parseStringBody_escapeChar, ih]

theorem serializeNat_head (n : Nat) :
    ∃ d tl, d < 10 ∧ serializeNat n = digitChar d :: tl :=
  natDigits_head (n + 1) n [] (Nat.lt_succ_self n)

theorem serializeValue_head (v : JsValue) :
    ∃ c tl, serializeValue v = c :: tl ∧ c ≠ ']' ∧ c ≠ '}' := by
  cases v with
  | str s => exact ⟨quote, _, by rw [serializeValue], by decide, by decide⟩
  | num n =>
    by_cases hn : n < 0
    · exact ⟨'-', serializeNat n.natAbs, by simp [serializeValue, serializeInt, hn],
        by decide, by decide⟩
    · obtain ⟨d, tl, hd, htl⟩ := serializeNat_head n.natAbs
      exact ⟨digitChar d, tl, by simp [serializeValue, serializeInt, hn, htl],
        (digitChar_ne d hd).2.2.2.2.2.2.1, (digitChar_ne d hd).2.2.2.2.2.2.2⟩
  | bool b =>
    cases b
    · exact ⟨'f', _, by rw [serializeValue], by decide, by decide⟩
    · exact ⟨'t', _, by rw [serializeValue], by decide, by decide⟩
  | arr items =>
    cases items with
    | nil => exact ⟨'[', _, by rw [serializeValue], by decide, by decide⟩
    | cons v vs => exact ⟨'[', _, by rw [serializeValue], by decide, by decide⟩
  | obj fields =>
    cases fields with
    | nil => exact ⟨'{', _, by rw [serializeValue], by decide, by decide⟩
    | cons e es =>
      obtain ⟨k, v⟩ := e
      exact ⟨'{', _, by rw [serializeValue], by decide, by decide⟩

theorem noDigitHead_serializeItems (vs : List JsValue) (rest : List Char) :
    NoDigitHead (serializeItems vs ++ rest) := by
  cases vs with
  | nil => exact noDigitHead_cons _ _ (by decide)
  | cons v vs => exact noDigitHead_cons _ _ (by decide)

theorem noDigitHead_serializeFields (es : List (String × JsValue)) (rest : List Char) :
    NoDigitHead (serializeFields es ++ rest) := by
  cases es with
  | nil => exact noDigitHead_cons _ _ (by decide)
  | cons e es =>
    obtain ⟨k, v⟩ := e
    exact noDigitHead_cons _ _ (by decide)

theorem parseField_serialize (parseVal : List Char → Option (JsValue × List Char))
    (k : String) (v : JsValue) (rest : List Char)
    (h : parseVal (serializeValue v ++ rest) = some (v, rest)) :
    parseField parseVal (quote :: (escapeChars k.data ++ quote :: ':' :: (serializeValue v ++ rest)))
      = some ((k, v), rest) := by
  simp [parseField, parseStringBody_escapeChars, h]

mutual
theorem parseValue_serializeValue : ∀ (v : JsValue) (fuel : Nat) (rest : List Char),
    (serializeValue v).length ≤ fuel → NoDigitHead rest →
      parseValue fuel (serializeValue v ++ rest) = some (v, rest)
  | .str s, fuel, rest, hf, _ => by
    rw [serializeValue] at hf ⊢
    obtain ⟨g, rfl⟩ : ∃ g, fuel = g + 1 := ⟨fuel - 1, by simp at hf; omega⟩
    simp [parseValue, parseStringBody_escapeChars]
  | .num n, fuel, rest, hf, hr => by
    rw [serializeValue] at hf ⊢
    obtain ⟨d, tl, hd, htl⟩ := serializeNat_head n.natAbs
    have hp := parseNat_serializeNat n.natAbs rest hr
    obtain ⟨h1, h2, h3, h4, h5, h6, -, -⟩ := digitChar_ne d hd
    by_cases hn : n < 0
    · simp only [serializeInt, hn, if_true] at hf ⊢
      obtain ⟨g, rfl⟩ : ∃ g, fuel = g + 1 := ⟨fuel - 1, by simp at hf; omega⟩
      have hp' : parseNat ((serializeNat n.natAbs).append rest) = some (n.natAbs, rest) := hp
      have habs : -(n.natAbs : Int) = n := by omega
      simp only [List.cons_append, parseValue, show ('-' : Char) ≠ quote by decide,
        show ('-' : Char) ≠ 't' by decide, show ('-' : Char) ≠ 'f' by decide,
        show ('-' : Char) ≠ '[' by decide, show ('-' : Char) ≠ '{' by decide, if_false,
        if_true, List.append_eq, hp, hp', habs]
    · simp only [serializeInt, hn, if_false] at hf ⊢
      rw [htl] at hf hp ⊢
      obtain ⟨g, rfl⟩ : ∃ g, fuel = g + 1 := ⟨fuel - 1, by simp at hf; omega⟩
      simp only [List.cons_append] at hp ⊢
      simp only [parseValue, h1, h2, h3, h4, h5, h6, if_false, hp]
      have : (n.natAbs : Int) = n := by omega
      rw [this]
  | .bool true, fuel, rest, hf, _ => by
    rw [serializeValue] at hf ⊢
    obtain ⟨g, rfl⟩ : ∃ g, fuel = g + 1 := ⟨fuel - 1, by simp at hf; omega⟩
    simp [parseValue, show ('t' : Char) ≠ quote by decide]
  | .bool false, fuel, rest, hf, _ => by
    rw [serializeValue] at hf ⊢
    obtain ⟨g, rfl⟩ : ∃ g, fuel = g + 1 := ⟨fuel - 1, by simp at hf; omega⟩
    simp [parseValue, show ('f' : Char) ≠ quote by decide, show ('f' : Char) ≠ 't' by decide]
  | .arr [], fuel, rest, hf, _ => by
    rw [serializeValue] at hf ⊢
    obtain ⟨g, rfl⟩ : ∃ g, fuel = g + 1 := ⟨fuel - 1, by simp at hf; omega⟩
    simp [parseValue, show ('[' : Char) ≠ quote by decide, show ('[' : Char) ≠ 't' by decide,
      show ('[' : Char) ≠ 'f' by decide]
  | .arr (v :: vs), fuel, rest, hf, _ => by
    rw [serializeValue] at hf ⊢
    simp only [List.length_cons, List.length_append] at hf
    obtain ⟨g, rfl⟩ : ∃ g, fuel = g + 1 := ⟨fuel - 1, by omega⟩
    have hv := parseValue_serializeValue v g (serializeItems vs ++ rest) (by omega)
      (noDigitHead_serializeItems vs rest)
    have hi := parseItems_serializeItems vs g rest (by omega)
    obtain ⟨c, tl, hc, hc1, -⟩ := serializeValue_head v
    rw [hc] at hv ⊢
    simp only [List.cons_append, List.append_assoc] at hv ⊢
    simp only [parseValue, show ('[' : Char) ≠ quote by decide,
      show ('[' : Char) ≠ 't' by decide, show ('[' : Char) ≠ 'f' by decide, if_false, if_true,
      hc1, hv, hi]
  | .obj [], fuel, rest, hf, _ => by
    rw [serializeValue] at hf ⊢
    obtain ⟨g, rfl⟩ : ∃ g, fuel = g + 1 := ⟨fuel - 1, by simp at hf; omega⟩
    simp [parseValue, show ('{' : Char) ≠ quote by decide, show ('{' : Char) ≠ 't' by decide,
      show ('{' : Char) ≠ 'f' by decide, show ('{' : Char) ≠ '[' by decide]
  | .obj ((k, v) :: es), fuel, rest, hf, _ => by
    rw [serializeValue] at hf ⊢
    simp only [List.length_cons, List.length_append] at hf
    obtain ⟨g, rfl⟩ : ∃ g, fuel = g + 1 := ⟨fuel - 1, by omega⟩
    have hv := parseValue_serializeValue v g (serializeFields es ++ rest) (by omega)
      (noDigitHead_serializeFields es rest)
    have hk := parseField_serialize (parseValue g) k v (serializeFields es ++ rest) hv
    have hi := parseFields_serializeFields es g rest (by omega)
    simp only [List.cons_append, List.append_assoc] at hk ⊢
    simp only [parseValue, show ('{' : Char) ≠ quote by decide,
      show ('{' : Char) ≠ 't' by decide, show ('{' : Char) ≠ 'f' by decide,
      show ('{' : Char) ≠ '[' by decide, show quote ≠ '}' by decide, if_false, if_true,
      hk, hi]
theorem parseItems_serializeItems : ∀ (vs : List JsValue) (fuel : Nat) (rest : List Char),
    (serializeItems vs).length ≤ fuel →
      parseItems fuel (serializeItems vs ++ rest) = some (vs, rest)
  | [], fuel, rest, hf => by
    rw [serializeItems] at hf ⊢
    obtain ⟨g, rfl⟩ : ∃ g, fuel = g + 1 := ⟨fuel - 1, by simp at hf; omega⟩
    simp [parseItems]
  | v :: vs, fuel, rest, hf => by
    rw [serializeItems] at hf ⊢
    simp only [List.length_cons, List.length_append] at hf
    obtain ⟨g, rfl⟩ : ∃ g, fuel = g + 1 := ⟨fuel - 1, by omega⟩
    have hv := parseValue_serializeValue v g (serializeItems vs ++ rest) (by omega)
      (noDigitHead_serializeItems vs rest)
    have hi := parseItems_serializeItems vs g rest (by omega)
    simp only [List.cons_append, List.append_assoc]
    simp only [parseItems, show (',' : Char) ≠ ']' by decide, if_false, if_true, hv, hi]
theorem parseFields_serializeFields : ∀ (es : List (String × JsValue)) (fuel : Nat)
    (rest : List Char), (serializeFields es).length ≤ fuel →
      parseFields fuel (serializeFields es ++ rest) = some (es, rest)
  | [], fuel, rest, hf => by
    rw [serializeFields] at hf ⊢
    obtain ⟨g, rfl⟩ : ∃ g, fuel = g + 1 := ⟨fuel - 1, by simp at hf; omega⟩
    simp [parseFields]
  | (k, v) :: es, fuel, rest, hf => by
    rw [serializeFields] at hf ⊢
    simp only [List.length_cons, List.length_append] at hf
    obtain ⟨g, rfl⟩ : ∃ g, fuel = g + 1 := ⟨fuel - 1, by omega⟩
    have hv := parseValue_serializeValue v g (serializeFields es ++ rest) (by omega)
      (noDigitHead_serializeFields es rest)
    have hk := parseField_serialize (parseValue g) k v (serializeFields es ++ rest) hv
    have hi := parseFields_serializeFields es g rest (by omega)
    simp only [List.cons_append, List.append_assoc] at hk ⊢
    simp only [parseFields, show (',' : Char) ≠ '}' by decide, if_false, if_true, hk, hi]
end

theorem parse_serialize (v : JsValue) : parse (serialize v) = some v := by
  have h := parseValue_serializeValue v ((serializeValue v).length + 1) [] (by omega)
    noDigitHead_nil
  simp only [List.append_nil] at h
  simp only [parse, serialize, String.length]
  rw [h]

set_option maxRecDepth 100000 in
theorem serialize_module_exports :
    serialize module.exports =
      "\x7b\"env\":\x7b\"node\":true,\"es6\":true\x7d,\"extends\":\"eslint:recommended\",\"globals\":\x7b\"Atomics\":\"readonly\",\"SharedArrayBuffer\":\"readonly\"\x7d,\"parserOptions\":\x7b\"ecmaVersion\":10,\"sourceType\":\"module\"\x7d,\"rules\":\x7b\"no-console\":\"warn\",\"no-unused-vars\":[\"error\",\x7b\"vars\":\"all\",\"args\":\"none\"\x7d]\x7d\x7d" := by
  decide

/-! ## The claims -/

/-- C1: every key of `rules` is 'no-console' or 'no-unused-vars', and the
severity of its entry (the entry itself when bare, the first element when the
entry is a tuple) is one of off, warn, error. -/
theorem rules_severity_in_enumeration (name : String) (entry : JsValue)
    (h : (name, entry) ∈ rules.fields) :
    (name = "no-console" ∨ name = "no-unused-vars") ∧
      ∃ s, ruleSeverity entry = some s ∧ (s = .off ∨ s = .warn ∨ s = .error) := by
  rw [rules_fields] at h
  simp only [List.mem_cons, Prod.mk.injEq, List.mem_singleton, List.not_mem_nil, or_false] at h
  rcases h with ⟨rfl, rfl⟩ | ⟨rfl, rfl⟩
  · exact ⟨Or.inl rfl, .warn, by decide, Or.inr (Or.inl rfl)⟩
  · exact ⟨Or.inr rfl, .error, by decide, Or.inr (Or.inr rfl)⟩

theorem rules_severity_in_enumeration_witness :
    ("no-unused-vars",
        JsValue.arr [.str "error", .obj [("vars", .str "all"), ("args", .str "none")]])
        ∈ rules.fields ∧
      (("no-unused-vars" = "no-console" ∨ "no-unused-vars" = "no-unused-vars") ∧
        ∃ s, ruleSeverity
            (JsValue.arr [.str "error", .obj [("vars", .str "all"), ("args", .str "none")]])
              = some s ∧ (s = .off ∨ s = .warn ∨ s = .error)) :=
  ⟨by rw [rules_fields]; simp,
   rules_severity_in_enumeration _ _ (by rw [rules_fields]; simp)⟩

/-- C2: every key of `globals` is Atomics or SharedArrayBuffer, and the value
it maps to reads as one of the two access-mode tags read-only, read-write. -/
theorem globals_mode_in_enumeration (name : String) (v : JsValue)
    (h : (name, v) ∈ globals.fields) :
    (name = "Atomics" ∨ name = "SharedArrayBuffer") ∧
      ∃ m, AccessMode.ofValue v = some m ∧ (m = .readOnly ∨ m = .readWrite) := by
  rw [globals_fields] at h
  simp only [List.mem_cons, Prod.mk.injEq, List.mem_singleton, List.not_mem_nil, or_false] at h
  rcases h with ⟨rfl, rfl⟩ | ⟨rfl, rfl⟩
  · exact ⟨Or.inl rfl, .readOnly, by decide, Or.inl rfl⟩
  · exact ⟨Or.inr rfl, .readOnly, by decide, Or.inl rfl⟩

theorem globals_mode_in_enumeration_witness :
    ("SharedArrayBuffer", JsValue.str "readonly") ∈ globals.fields ∧
      (("SharedArrayBuffer" = "Atomics" ∨ "SharedArrayBuffer" = "SharedArrayBuffer") ∧
        ∃ m, AccessMode.ofValue (JsValue.str "readonly") = some m ∧
          (m = .readOnly ∨ m = .readWrite)) :=
  ⟨by rw [globals_fields]; simp,
   globals_mode_in_enumeration _ _ (by rw [globals_fields]; simp)⟩

/-- C3: over every base rule-set, layering the descriptor's `rules` on top gives
the rule 'no-console' the severity warn, and so not the severity error. -/
theorem no_console_resolves_to_warn (base : List (String × JsValue)) :
    resolvedSeverity base "no-console" = some .warn ∧
      resolvedSeverity base "no-console" ≠ some .error := by
  have h : resolvedSeverity base "no-console" = some .warn := by
    have hk : getProp "no-console" rules.fields = some (.str "warn") := by rfl
    simp only [resolvedSeverity, resolvedRules, layer, getProp_append, hk]
    decide
  exact ⟨h, by rw [h]; decide⟩

/-- C4: `globals` contains Atomics and maps it to the read-only mode and not to
read-write; the lookup succeeds, so a reference to Atomics is not reported as
undefined, and the mode does not permit reassignment, so a reassignment of
Atomics is reported as a read-only-global violation. -/
theorem atomics_is_readonly_global :
    globals.prop "Atomics" = some (.str "readonly") ∧
      globalMode "Atomics" = some .readOnly ∧
      globalMode "Atomics" ≠ some .readWrite ∧
      undefinedIdentifier "Atomics" = false ∧
      AccessMode.permitsReassignment .readOnly = false ∧
      readOnlyReassigned "Atomics" = true := by
  refine ⟨by rfl, by decide, by decide, by decide, by decide, by decide⟩

/-- C6: every environment tag present in `env` is node or es6, so the commented-out
browser tag is not among them, and is a recognized environment tag. -/
theorem environments_recognized (t : String) (h : t ∈ environments) :
    (t = "node" ∨ t = "es6") ∧ t ≠ "browser" ∧ t ∈ recognizedEnvironments := by
  have he : environments = ["node", "es6"] := by decide
  rw [he] at h
  simp only [List.mem_cons, List.mem_singleton, List.not_mem_nil, or_false] at h
  rcases h with rfl | rfl
  · exact ⟨Or.inl rfl, by decide, by decide⟩
  · exact ⟨Or.inr rfl, by decide, by decide⟩

theorem environments_recognized_witness :
    "es6" ∈ environments ∧
      (("es6" = "node" ∨ "es6" = "es6") ∧ "es6" ≠ "browser" ∧ "es6" ∈ recognizedEnvironments) :=
  ⟨by decide, environments_recognized "es6" (by decide)⟩

/-- C7: serializing the descriptor exported by the configuration file to text and
re-parsing that text gives back the descriptor itself, with every field, key,
value and order as in the original. -/
theorem descriptor_round_trip :
    parse (serialize module.exports) = some module.exports :=
  parse_serialize module.exports

/-- C8: in every object literal of the descriptor (the top-level record, `env`,
`globals`, `parserOptions`, `rules` and the options record of 'no-unused-vars')
no key occurs twice, so every entry is the one read back under its key and none
is overwritten by a later one. -/
theorem record_keys_unique (r : List (String × JsValue))
    (h : r ∈ module.exports.records) :
    (r.map Prod.fst).Nodup ∧ ∀ k v, (k, v) ∈ r → getProp k r = some v :=
  ⟨records_nodup r h, getProp_of_nodup r (records_nodup r h)⟩

theorem record_keys_unique_witness :
    [("vars", JsValue.str "all"), ("args", JsValue.str "none")] ∈ module.exports.records ∧
      (([("vars", JsValue.str "all"), ("args", JsValue.str "none")].map Prod.fst).Nodup ∧
        ∀ k v, (k, v) ∈ [("vars", JsValue.str "all"), ("args", JsValue.str "none")] →
          getProp k [("vars", JsValue.str "all"), ("args", JsValue.str "none")] = some v) :=
  have hm : [("vars", JsValue.str "all"), ("args", JsValue.str "none")]
      ∈ module.exports.records := by
    simp [module.exports, JsValue.records, JsValue.records.recordsOfFields,
      JsValue.records.recordsOfItems]
  ⟨hm, record_keys_unique _ hm⟩

/-- C9: the `extends` field reads as the ordered sequence with the one entry
'eslint:recommended', and in a sequence of base rule-sets a later entry
overrides the earlier ones on a key both define. -/
theorem extends_is_sequence_later_wins :
    extendsNames extendsField = some ["eslint:recommended"] ∧
      ∀ (ruleSetOf : String → List (String × JsValue)) (earlier : List String)
        (last k : String),
        getProp k (resolveExtends ruleSetOf (earlier ++ [last])) =
          match getProp k (ruleSetOf last) with
          | some v => some v
          | none => getProp k (resolveExtends ruleSetOf earlier) := by
  refine ⟨by decide, ?_⟩
  intro ruleSetOf earlier last k
  simp only [resolveExtends, List.foldl_append, List.foldl_cons, List.foldl_nil, layer,
    getProp_append]

/-- C10: `sourceType` is one of the two module-system modes, namely module, the
es6 environment is enabled, and `ecmaVersion` is an integer that is at least 6. -/
theorem parser_options_consistent :
    (∃ st, sourceType = some st ∧ (st = .script ∨ st = .module)) ∧
      sourceType = some .module ∧
      "es6" ∈ environments ∧
      ∃ n, ecmaVersion = some n ∧ 6 ≤ n := by
  refine ⟨⟨.module, by decide, Or.inr rfl⟩, by decide, by decide, 10, by decide, by decide⟩

end EslintRc
